import Mathlib

open List

/-!
Verification of the ISAM record store (`prueba.py`, with the record/page codec
variants of `p1.py`) against its specification.

The store is shallowly embedded:
* bytes are `List Nat` (each entry a byte value);
* the fixed-width record codec (`struct` format `i40sif15s`, 67 bytes) is
  modelled at byte level, with the 32-bit float `precio` represented by its
  32-bit image `precioBits` (double-to-float32 narrowing is floating-point
  behaviour outside this embedding);
* the data file is a `List Page`, the index file a `List (Int × Nat)` of
  `(minKey, pageNumber)` entries;
* fallible operations (decoding a short read, reading a page past the end of
  the file, a non-terminating chain walk) return `Except Unit` / `Option`
  errors, mirroring the `struct.error` / `ValueError` exceptions of the source.

Loops of the source are modelled with explicit fuel chosen large enough for
every store the theorems speak about; fuel exhaustion surfaces as an error.
-/

/-- Page capacity, as in `prueba.py` (`BLOCK_FACTOR = 3`). -/
def BLOCK_FACTOR : Nat := 3

/-! ## Byte-level primitives -/

/-- The ASCII-range bytes stripped by Python's `str.strip()`: HT LF VT FF CR
(9–13), the separators FS GS RS US (28–31), and space (32) — exactly the
characters below 128 for which `str.isspace()` holds. Non-ASCII text is not
modelled byte-for-byte: it first passes through `decode(errors="ignore")`,
which can drop bytes outright, and decoded unicode whitespace (U+0085,
U+00A0, …) is stripped too; the round-trip theorem therefore restricts the
text fields to ASCII bytes, on which `decode` is the identity and this set is
the exact strip set. -/
def isWsByte (b : Nat) : Bool :=
  b == 9 || b == 10 || b == 11 || b == 12 || b == 13 ||
  b == 28 || b == 29 || b == 30 || b == 31 || b == 32

/-- `bytes.rstrip(b'\x00')`: drop trailing zero bytes. -/
def rstripNull (l : List Nat) : List Nat :=
  (l.reverse.dropWhile (fun b => b == 0)).reverse

/-- `str.strip()`: drop leading and trailing whitespace. -/
def stripWs (l : List Nat) : List Nat :=
  ((l.dropWhile isWsByte).reverse.dropWhile isWsByte).reverse

/-- The four little-endian bytes of a natural number below `2^32`. -/
def natLE4 (m : Nat) : List Nat :=
  [m % 256, m / 256 % 256, m / 65536 % 256, m / 16777216 % 256]

/-- Read four little-endian bytes as a natural number. -/
def natFromLE4 (bs : List Nat) : Nat :=
  bs.getD 0 0 + 256 * bs.getD 1 0 + 65536 * bs.getD 2 0 + 16777216 * bs.getD 3 0

/-- `struct.pack('i', n)` for an in-range `n`: its little-endian two's-complement bytes. -/
def encodeI32 (n : Int) : List Nat := natLE4 ((n % 4294967296).toNat)

/-- `struct.unpack('i', bs)`: little-endian two's-complement decode. -/
def decodeI32 (bs : List Nat) : Int :=
  if natFromLE4 bs % 4294967296 < 2147483648 then
    ((natFromLE4 bs % 4294967296 : Nat) : Int)
  else ((natFromLE4 bs % 4294967296 : Nat) : Int) - 4294967296

/-- `data[off : off + len]`. -/
def sliceBytes (bs : List Nat) (off len : Nat) : List Nat := (bs.drop off).take len

/-- Truncate to `w` bytes and right-pad with zero bytes to exactly `w`
(`.encode().ljust(w, b'\x00')` followed by the truncating `struct` `s` format). -/
def padZeros (w : Nat) (l : List Nat) : List Nat :=
  l.take w ++ List.replicate (w - l.length) 0

/-! ## Record -/

/-- A logical record (`Record` in `prueba.py`): `id`, `nombre` (≤ 40 bytes),
`cantidad`, `precio` (kept as its 32-bit float image `precioBits`), `fecha`
(≤ 15 bytes). -/
structure Record where
  id : Int
  nombre : List Nat
  cantidad : Int
  precioBits : Nat
  fecha : List Nat
deriving DecidableEq

/-- The `Record.__init__` constructor: text fields are truncated to their
declared widths (`nombre[:40]`, `fecha[:15]`). -/
def mkRecord (id : Int) (nombre : List Nat) (cantidad : Int) (precioBits : Nat)
    (fecha : List Nat) : Record :=
  ⟨id, nombre.take 40, cantidad, precioBits, fecha.take 15⟩

/-- `Record.SIZE_OF_RECORD = struct.calcsize('i40sif15s')`. -/
def SIZE_OF_RECORD : Nat := 67

/-- `Record.pack`. `struct.pack('i', v)` raises for an out-of-range integer,
hence the guard; the float is stored through its 32-bit image. -/
def Record.pack (r : Record) : Option (List Nat) :=
  if (-2147483648 ≤ r.id ∧ r.id < 2147483648) ∧
      (-2147483648 ≤ r.cantidad ∧ r.cantidad < 2147483648) ∧
      r.precioBits < 4294967296 then
    some (encodeI32 r.id ++ padZeros 40 r.nombre ++ encodeI32 r.cantidad ++
      natLE4 r.precioBits ++ padZeros 15 r.fecha)
  else none

/-- `Record.unpack`: `struct.unpack` demands exactly 67 bytes; the name and
date are NUL-right-stripped and then whitespace-stripped, and the result goes
through the `Record` constructor again. -/
def Record.unpack (bs : List Nat) : Option Record :=
  if bs.length = SIZE_OF_RECORD then
    some (mkRecord (decodeI32 (sliceBytes bs 0 4))
      (stripWs (rstripNull (sliceBytes bs 4 40)))
      (decodeI32 (sliceBytes bs 44 4))
      (natFromLE4 (sliceBytes bs 48 4))
      (stripWs (rstripNull (sliceBytes bs 52 15))))
  else none

/-! ## Page -/

/-- A data page (`Page` in `prueba.py`): the live records and the chain
pointer `next_page` (page number, `-1` when there is no successor). -/
structure Page where
  records : List Record
  next_page : Int
deriving DecidableEq

/-- `Page.SIZE_OF_PAGE = SIZE_HEADER + BLOCK_FACTOR * SIZE_OF_RECORD = 8 + 3*67`. -/
def SIZE_OF_PAGE : Nat := 8 + BLOCK_FACTOR * SIZE_OF_RECORD

/-- Decode `size` records of 67 bytes each starting at `off`
(the loop of `Page.unpack`); a short slice fails like `struct.unpack`. -/
def unpackRecords (bs : List Nat) : Nat → Nat → Option (List Record)
  | _, 0 => some []
  | off, n + 1 =>
    match Record.unpack (sliceBytes bs off SIZE_OF_RECORD) with
    | none => none
    | some r =>
      match unpackRecords bs (off + SIZE_OF_RECORD) n with
      | none => none
      | some rs => some (r :: rs)

/-- `Page.unpack`: read the `(size, next_page)` header, then exactly `size`
records; a buffer shorter than the header, or a record slice that runs out of
bytes, is a decode error. A negative `size` makes `range(size)` empty, so it
decodes to zero records. -/
def Page.unpack (bs : List Nat) : Option Page :=
  if bs.length < 8 then none
  else
    match unpackRecords bs 8 (decodeI32 (sliceBytes bs 0 4)).toNat with
    | none => none
    | some recs => some ⟨recs, decodeI32 (sliceBytes bs 4 4)⟩

/-! ## Index file -/

/-- `IndexFile.build`: scan every page of the data file in page-number order
and emit `(first record id, page number)` for each page that has records. -/
def IndexFile.build (pages : List Page) : List (Int × Nat) :=
  pages.enum.filterMap fun pr =>
    match pr.2.records with
    | [] => none
    | r :: _ => some (r.id, pr.1)

/-- The scan of `IndexFile.find_page_for_key`: remember the page of the last
entry with `key ≤` the searched key, stopping at the first larger entry. -/
def findBestAux : List (Int × Nat) → Int → Option Nat → Option Nat
  | [], _, best => best
  | (k, p) :: rest, key, best =>
    if k ≤ key then findBestAux rest key (some p) else best

/-- `IndexFile.find_page_for_key`: the primary page owning `key` — the last
entry with `minKey ≤ key`, the first entry's page if every `minKey` is larger,
page `0` if the index is empty. -/
def IndexFile.find_page_for_key (entries : List (Int × Nat)) (key : Int) : Nat :=
  match entries with
  | [] => 0
  | (_, p0) :: _ => (findBestAux entries key none).getD p0

/-! ## ISAM engine -/

/-- The persistent state: the data file as a list of pages and the index file
as a list of `(minKey, pageNumber)` entries. -/
structure Store where
  pages : List Page
  index : List (Int × Nat)
deriving DecidableEq

/-- A freshly created store: empty data file, no index file. -/
def emptyStore : Store := ⟨[], []⟩

/-- The loop of `bisect.bisect_left`; fuel bounds the (always terminating)
binary search. -/
def bisectLoop (keys : List Int) (x : Int) : Nat → Nat → Nat → Nat
  | 0, lo, _ => lo
  | fuel + 1, lo, hi =>
    if lo < hi then
      if keys.getD ((lo + hi) / 2) 0 < x then
        bisectLoop keys x fuel ((lo + hi) / 2 + 1) hi
      else bisectLoop keys x fuel lo ((lo + hi) / 2)
    else lo

/-- `bisect.bisect_left(keys, x)`. The interval shrinks every iteration, so
`keys.length + 1` steps of fuel always suffice. -/
def bisect_left (keys : List Int) (x : Int) : Nat :=
  bisectLoop keys x (keys.length + 1) 0 keys.length

/-- The insertion point of `x` in a sorted key list: the length of the prefix
of keys strictly below `x`. `bisect_left` computes exactly this on sorted
input. -/
def insPoint (keys : List Int) (x : Int) : Nat :=
  (keys.takeWhile (fun k => decide (k < x))).length

/-- `ISAM._insert_into_page_sorted`: insert `rec` at the `bisect_left`
position of its id among the page's record ids. -/
def ISAM.insert_into_page_sorted (page : Page) (rec : Record) : Page :=
  ⟨page.records.insertIdx (bisect_left (page.records.map (·.id)) rec.id) rec,
    page.next_page⟩

/-- The page writes of one `ISAM.insert` on a non-empty store, after `curPg'`
(the target page with the record already inserted in sorted position) has been
computed. If the page still fits it is rewritten in place. Otherwise it is
split at `mid = ⌈count/2⌉`: the low half stays in the target slot with its
chain pointer aimed at the new page, and the high half is appended at page
number `pages.length` inheriting the pointer the target held before the
split. -/
def ISAM.insertPages (pages : List Page) (target : Nat) (curPg' : Page) :
    List Page :=
  if curPg'.records.length ≤ BLOCK_FACTOR then
    pages.set target curPg'
  else
    (pages.set target
        ⟨curPg'.records.take ((curPg'.records.length + 1) / 2),
          (pages.length : Int)⟩)
      ++ [⟨curPg'.records.drop ((curPg'.records.length + 1) / 2),
          curPg'.next_page⟩]

/-- `ISAM.insert`. The empty store gets page 0 = `[rec]` and index
`[(rec.id, 0)]`. Otherwise the record is inserted, sorted, into the page the
index designates (the `while True` loop of the source breaks on its first
iteration in both branches, so no chain link is ever followed), splitting per
`ISAM.insertPages` when the page overflows. The index is rebuilt only if the
index file is missing or empty. Reading a page past the end of the data file
fails to decode, which surfaces as an error. -/
def ISAM.insert (s : Store) (rec : Record) : Except Unit Store :=
  if s.pages.length = 0 then
    .ok ⟨[⟨[rec], -1⟩], [(rec.id, 0)]⟩
  else
    match s.pages[IndexFile.find_page_for_key s.index rec.id]? with
    | none => .error ()
    | some curPg =>
      .ok ⟨ISAM.insertPages s.pages (IndexFile.find_page_for_key s.index rec.id)
            (ISAM.insert_into_page_sorted curPg rec),
        if s.index = [] then
          IndexFile.build
            (ISAM.insertPages s.pages
              (IndexFile.find_page_for_key s.index rec.id)
              (ISAM.insert_into_page_sorted curPg rec))
        else s.index⟩

/-- The chain walk of `ISAM.search`: stop with "not found" at the `-1`
sentinel; a negative pointer other than `-1` (a bad seek), a pointer past the
end of the file (a failed decode), or a non-terminating chain (fuel
exhaustion) is an error. -/
def searchChain (pages : List Page) (key : Int) : Int → Nat → Except Unit (Option Record)
  | _, 0 => .error ()
  | pno, fuel + 1 =>
    if pno = -1 then .ok none
    else if pno < 0 then .error ()
    else
      match pages[pno.toNat]? with
      | none => .error ()
      | some pg =>
        match pg.records.find? (fun r => r.id == key) with
        | some r => .ok (some r)
        | none => searchChain pages key pg.next_page fuel

/-- `ISAM.search`: locate the owning primary page through the index, then walk
its chain scanning each page's records. -/
def ISAM.search (s : Store) (key : Int) : Except Unit (Option Record) :=
  searchChain s.pages key (IndexFile.find_page_for_key s.index key : Nat)
    (s.pages.length + 1)

/-- Insert a batch of records in order, propagating any error
(the module-level driver of `prueba.py`). -/
def insertAll (s : Store) : List Record → Except Unit Store
  | [] => .ok s
  | r :: rs =>
    match ISAM.insert s r with
    | .error e => .error e
    | .ok s' => insertAll s' rs

/-! ## Derived views used by the statements -/

/-- The ids of a page's records, in page order. -/
def pageIds (pg : Page) : List Int := pg.records.map (·.id)

/-- Every record in the data file, in page order. -/
def allRecords (s : Store) : List Record := (s.pages.map Page.records).flatten

/-- Total number of stored records. -/
def totalRecords (s : Store) : Nat := (allRecords s).length

/-- The page numbers visited following `next_page` from `pno`
(stopping at a negative pointer or an unreadable page). -/
def chainFrom (pages : List Page) : Int → Nat → List Nat
  | _, 0 => []
  | pno, fuel + 1 =>
    if pno < 0 then []
    else
      match pages[pno.toNat]? with
      | none => []
      | some pg => pno.toNat :: chainFrom pages pg.next_page fuel

/-- The chain of page numbers rooted at page 0. -/
def chainList (pages : List Page) : List Nat := chainFrom pages 0 (pages.length + 1)

/-- The pointer at which a chain walk from `pno` stops cleanly
(`none` when it stops by failing to read a page, or runs out of fuel). -/
def walkEnd (pages : List Page) : Int → Nat → Option Int
  | _, 0 => none
  | pno, fuel + 1 =>
    if pno < 0 then some pno
    else
      match pages[pno.toNat]? with
      | none => none
      | some pg => walkEnd pages pg.next_page fuel

/-- The invariant of every store reachable from `emptyStore` by inserting the
records `rs` in order: the index holds the single entry
`(first inserted id, 0)`; the chain rooted at page 0 ends cleanly at the `-1`
sentinel and visits every page of the file exactly once; the stored records
are exactly the inserted ones; and every page is sorted (non-strictly) by id. -/
def StoreOK : Store → List Record → Prop
  | s, [] => s = emptyStore
  | s, r0 :: rest =>
    s.index = [(r0.id, 0)] ∧ s.pages ≠ [] ∧
    walkEnd s.pages 0 (s.pages.length + 1) = some (-1) ∧
    (chainList s.pages).Perm (List.range s.pages.length) ∧
    (allRecords s).Perm (r0 :: rest) ∧
    ∀ pg ∈ s.pages, List.Pairwise (· ≤ ·) (pageIds pg)

/-! ## Concrete data from the module driver of `prueba.py` -/

/-- The seven driver records: ids 10, 2, 7, 1, 12, 5, 6 with names A…G,
quantities 1…7, prices 1.0…7.0 (32-bit float images) and dates
2024-01-01 … 2024-01-07. -/
def c1Records : List Record :=
  [mkRecord 10 [65] 1 1065353216 [50, 48, 50, 52, 45, 48, 49, 45, 48, 49],
   mkRecord 2 [66] 2 1073741824 [50, 48, 50, 52, 45, 48, 49, 45, 48, 50],
   mkRecord 7 [67] 3 1077936128 [50, 48, 50, 52, 45, 48, 49, 45, 48, 51],
   mkRecord 1 [68] 4 1082130432 [50, 48, 50, 52, 45, 48, 49, 45, 48, 52],
   mkRecord 12 [69] 5 1084227584 [50, 48, 50, 52, 45, 48, 49, 45, 48, 53],
   mkRecord 5 [70] 6 1086324736 [50, 48, 50, 52, 45, 48, 49, 45, 48, 54],
   mkRecord 6 [71] 7 1088421888 [50, 48, 50, 52, 45, 48, 49, 45, 48, 55]]

/-- The store left by running the driver's seven inserts on an empty store. -/
def c1Store : Store :=
  match insertAll emptyStore c1Records with
  | .ok s => s
  | .error _ => emptyStore

/-- Two records sharing id 5 (duplicate-key experiments). -/
def dupRecA : Record := mkRecord 5 [65] 1 1065353216 [50, 48, 50, 52]
/-- Second record with the same id 5 but a different payload. -/
def dupRecB : Record := mkRecord 5 [66] 2 1073741824 [50, 48, 50, 53]

/-- The store after inserting `dupRecA` into an empty store. -/
def dupS1 : Store := ⟨[⟨[dupRecA], -1⟩], [(5, 0)]⟩
/-- The store after additionally inserting `dupRecB` (same id): `bisect_left`
places it in front of the equal id. -/
def dupS2 : Store := ⟨[⟨[dupRecB, dupRecA], -1⟩], [(5, 0)]⟩

/-- Decidable equality of operation outcomes, so that concrete runs can be
checked by `decide`. -/
def exceptDecEq {ε α : Type} [DecidableEq ε] [DecidableEq α] :
    DecidableEq (Except ε α)
  | .error e, .error f =>
    if h : e = f then .isTrue (h ▸ rfl)
    else .isFalse (fun c => h (Except.error.inj c))
  | .error _, .ok _ => .isFalse (fun c => Except.noConfusion c)
  | .ok _, .error _ => .isFalse (fun c => Except.noConfusion c)
  | .ok a, .ok b =>
    if h : a = b then .isTrue (h ▸ rfl)
    else .isFalse (fun c => h (Except.ok.inj c))

instance {ε α : Type} [DecidableEq ε] [DecidableEq α] : DecidableEq (Except ε α) :=
  exceptDecEq

/-- Records with ids 1, 2, 7, 10, 12: inserting the first four builds the
two-page chain `[1,2] -> [7,10]`; the fifth insert (id 12) exercises the
chain walk of the specification. -/
def c3Records : List Record :=
  [mkRecord 1 [] 0 0 [], mkRecord 2 [] 0 0 [], mkRecord 7 [] 0 0 [],
   mkRecord 10 [] 0 0 [], mkRecord 12 [] 0 0 []]

/-- The store left by inserting `c3Records` into an empty store. -/
def c3Store : Store :=
  match insertAll emptyStore c3Records with
  | .ok s => s
  | .error _ => emptyStore

/-- A page buffer of `SIZE_OF_PAGE` zero bytes: header `count = 0`,
`next_page = 0`, empty record area. -/
def c9GoodBuf : List Nat := List.replicate 209 0

/-- A page buffer whose encoded `count` is 4 (> `BLOCK_FACTOR`). -/
def c9BadBuf : List Nat := 4 :: List.replicate 208 0

/-- A record whose name starts with a space — within the declared byte
widths, but altered by the decoder's `strip()`. -/
def c7Rec : Record := mkRecord 1 [32, 65] 0 0 []

/-! ## Lemmas: binary search -/

theorem bisectLoop_bounds (keys : List Int) (x : Int) :
    ∀ fuel lo hi, lo ≤ hi →
      lo ≤ bisectLoop keys x fuel lo hi ∧ bisectLoop keys x fuel lo hi ≤ hi := by
  intro fuel
  induction fuel with
  | zero => intro lo hi h; simpa [bisectLoop] using h
  | succ n ih =>
    intro lo hi h
    rw [bisectLoop]
    split
    · split
      · have := ih ((lo + hi) / 2 + 1) hi (by omega)
        omega
      · have := ih lo ((lo + hi) / 2) (by omega)
        omega
    · omega

theorem bisect_left_le (keys : List Int) (x : Int) :
    bisect_left keys x ≤ keys.length :=
  (bisectLoop_bounds keys x (keys.length + 1) 0 keys.length (Nat.zero_le _)).2

theorem takeWhile_length_le_of_getElem_false {α : Type} {l : List α}
    {p : α → Bool} {i : Nat} (h : i < l.length) (hp : p l[i] = false) :
    (l.takeWhile p).length ≤ i := by
  induction l generalizing i with
  | nil => simp at h
  | cons a t ih =>
    cases hpa : p a with
    | false => simp [List.takeWhile_cons, hpa]
    | true =>
      cases i with
      | zero => simp at hp; rw [hp] at hpa; cases hpa
      | succ j =>
        rw [List.takeWhile_cons, if_pos hpa]
        have hjt : j < t.length := by simpa using h
        have := ih hjt (by simpa using hp)
        simp only [List.length_cons]
        omega

theorem le_takeWhile_length_of_forall {α : Type} {l : List α}
    {p : α → Bool} {i : Nat} (h : i < l.length)
    (hp : ∀ j, (hj : j < l.length) → j ≤ i → p l[j] = true) :
    i + 1 ≤ (l.takeWhile p).length := by
  induction l generalizing i with
  | nil => simp at h
  | cons a t ih =>
    have hpa : p a = true := hp 0 (by simp) (Nat.zero_le _)
    rw [List.takeWhile_cons, if_pos hpa]
    cases i with
    | zero => simp
    | succ j =>
      have hjt : j < t.length := by simpa using h
      have := ih hjt (fun j' hj' hle => by
        have := hp (j' + 1) (by simpa using hj') (by omega)
        simpa using this)
      simp only [List.length_cons]
      omega

theorem bisectLoop_sorted_eq {keys : List Int} {x : Int}
    (hs : List.Pairwise (· ≤ ·) keys) :
    ∀ fuel lo hi, hi ≤ keys.length → lo ≤ insPoint keys x →
      insPoint keys x ≤ hi → hi - lo ≤ fuel →
      bisectLoop keys x fuel lo hi = insPoint keys x := by
  intro fuel
  induction fuel with
  | zero => intro lo hi _ h1 h2 h3; rw [bisectLoop]; omega
  | succ n ih =>
    intro lo hi hlen h1 h2 h3
    by_cases hlh : lo < hi
    · have hmid : (lo + hi) / 2 < keys.length := by omega
      rw [bisectLoop, if_pos hlh]
      have hget : keys.getD ((lo + hi) / 2) 0 = keys[(lo + hi) / 2] :=
        List.getD_eq_getElem keys 0 hmid
      by_cases hkey : keys.getD ((lo + hi) / 2) 0 < x
      · rw [if_pos hkey]
        have hup : (lo + hi) / 2 + 1 ≤ insPoint keys x := by
          apply le_takeWhile_length_of_forall hmid
          intro j hj hle
          have : keys[j] ≤ keys[(lo + hi) / 2] := by
            rcases Nat.lt_or_ge j ((lo + hi) / 2) with hlt | hge
            · exact List.pairwise_iff_get.mp hs ⟨j, hj⟩ ⟨(lo + hi) / 2, hmid⟩ hlt
            · have : j = (lo + hi) / 2 := by omega
              subst this; exact le_rfl
          rw [hget] at hkey
          exact decide_eq_true (by omega)
        exact ih ((lo + hi) / 2 + 1) hi hlen hup h2 (by omega)
      · rw [if_neg hkey]
        have hdown : insPoint keys x ≤ (lo + hi) / 2 := by
          apply takeWhile_length_le_of_getElem_false hmid
          rw [hget] at hkey
          exact decide_eq_false hkey
        exact ih lo ((lo + hi) / 2) (by omega) h1 hdown (by omega)
    · rw [bisectLoop, if_neg hlh]; omega

theorem insPoint_le_length (keys : List Int) (x : Int) :
    insPoint keys x ≤ keys.length :=
  List.Sublist.length_le (List.takeWhile_sublist _)

theorem bisect_left_sorted {keys : List Int} (x : Int)
    (hs : List.Pairwise (· ≤ ·) keys) :
    bisect_left keys x = insPoint keys x :=
  bisectLoop_sorted_eq hs (keys.length + 1) 0 keys.length le_rfl (Nat.zero_le _)
    (insPoint_le_length keys x) (by omega)

/-! ## Lemmas: sorted insertion -/

theorem insertIdx_append_cons {α : Type} (l1 l2 : List α) (x : α) :
    (l1 ++ l2).insertIdx l1.length x = l1 ++ x :: l2 := by
  induction l1 with
  | nil => rfl
  | cons a t ih => simp [List.insertIdx_succ_cons, ih]

theorem map_insertIdx {α β : Type} (f : α → β) :
    ∀ (l : List α) (n : Nat) (x : α),
      (l.insertIdx n x).map f = (l.map f).insertIdx n (f x)
  | _, 0, _ => rfl
  | [], _ + 1, _ => rfl
  | a :: t, n + 1, x => by
    simp [List.insertIdx_succ_cons, map_insertIdx f t n x]

theorem insertIdx_perm {α : Type} (x : α) :
    ∀ (l : List α) (n : Nat), n ≤ l.length → (l.insertIdx n x).Perm (x :: l)
  | l, 0, _ => by simp
  | [], n + 1, h => by simp at h
  | a :: t, n + 1, h => by
    rw [List.insertIdx_succ_cons]
    exact (List.Perm.cons a (insertIdx_perm x t n (by simpa using h))).trans
      (List.Perm.swap x a t)

theorem le_of_mem_dropWhile_lt {x : Int} :
    ∀ {l : List Int}, List.Pairwise (· ≤ ·) l →
      ∀ b ∈ l.dropWhile (fun k => decide (k < x)), x ≤ b := by
  intro l
  induction l with
  | nil => simp
  | cons a t ih =>
    intro hs b hb
    rw [List.dropWhile_cons] at hb
    split at hb
    · exact ih (List.Pairwise.of_cons hs) b hb
    · rename_i hcond
      have hax : x ≤ a := by
        have : ¬ (a < x) := by simpa using hcond
        omega
      rcases List.mem_cons.mp hb with rfl | hbt
      · exact hax
      · exact le_trans hax ((List.pairwise_cons.mp hs).1 b hbt)

theorem lt_of_mem_takeWhile_lt {x : Int} {l : List Int} {b : Int}
    (hb : b ∈ l.takeWhile (fun k => decide (k < x))) : b < x := by
  have := List.mem_takeWhile_imp hb
  simpa using this

theorem insert_into_page_sorted_next (pg : Page) (rec : Record) :
    (ISAM.insert_into_page_sorted pg rec).next_page = pg.next_page := rfl

theorem insert_into_page_sorted_perm (pg : Page) (rec : Record) :
    (ISAM.insert_into_page_sorted pg rec).records.Perm (rec :: pg.records) := by
  apply insertIdx_perm
  have := bisect_left_le (pg.records.map (·.id)) rec.id
  simpa using this

theorem insert_into_page_sorted_length (pg : Page) (rec : Record) :
    (ISAM.insert_into_page_sorted pg rec).records.length =
      pg.records.length + 1 := by
  have := (insert_into_page_sorted_perm pg rec).length_eq
  simpa using this

theorem insertIdx_insPoint_eq (x : Int) (l : List Int) :
    l.insertIdx (insPoint l x) x =
      l.takeWhile (fun k => decide (k < x)) ++
        x :: l.dropWhile (fun k => decide (k < x)) := by
  rw [← insertIdx_append_cons (l.takeWhile (fun k => decide (k < x)))
      (l.dropWhile (fun k => decide (k < x))) x,
    List.takeWhile_append_dropWhile]
  rfl

theorem pairwise_insertIdx_insPoint (x : Int) {l : List Int}
    (hs : List.Pairwise (· ≤ ·) l) :
    List.Pairwise (· ≤ ·) (l.insertIdx (insPoint l x) x) := by
  rw [insertIdx_insPoint_eq, List.pairwise_append]
  refine ⟨hs.sublist (List.takeWhile_sublist _), ?_, ?_⟩
  · rw [List.pairwise_cons]
    exact ⟨le_of_mem_dropWhile_lt hs, hs.sublist (List.dropWhile_sublist _)⟩
  · intro a ha b hb
    have hax : a < x := lt_of_mem_takeWhile_lt ha
    rcases List.mem_cons.mp hb with rfl | hbd
    · omega
    · have := le_of_mem_dropWhile_lt hs b hbd
      omega

theorem pageIds_insert_sorted {pg : Page} (rec : Record)
    (hs : List.Pairwise (· ≤ ·) (pageIds pg)) :
    List.Pairwise (· ≤ ·) (pageIds (ISAM.insert_into_page_sorted pg rec)) := by
  have hkeys : pg.records.map (·.id) = pageIds pg := rfl
  show List.Pairwise (· ≤ ·)
    ((pg.records.insertIdx (bisect_left (pg.records.map (·.id)) rec.id) rec).map (·.id))
  rw [map_insertIdx, hkeys, bisect_left_sorted rec.id hs]
  exact pairwise_insertIdx_insPoint rec.id hs

theorem find_page_single (k key : Int) :
    IndexFile.find_page_for_key [(k, 0)] key = 0 := by
  by_cases h : k ≤ key <;>
    simp [IndexFile.find_page_for_key, findBestAux, h]

/-! ## Lemmas: chain traversal -/

theorem chainFrom_congr {pages1 pages2 : List Page}
    (hlen : pages1.length = pages2.length)
    (hnext : ∀ i, (h1 : i < pages1.length) → (h2 : i < pages2.length) →
      pages1[i].next_page = pages2[i].next_page) :
    ∀ fuel pno, chainFrom pages1 pno fuel = chainFrom pages2 pno fuel := by
  intro fuel
  induction fuel with
  | zero => intro pno; rfl
  | succ n ih =>
    intro pno
    rw [chainFrom, chainFrom]
    by_cases hneg : pno < 0
    · rw [if_pos hneg, if_pos hneg]
    · rw [if_neg hneg, if_neg hneg]
      by_cases hin : pno.toNat < pages1.length
      · have h2 : pno.toNat < pages2.length := hlen ▸ hin
        simp only [List.getElem?_eq_getElem hin, List.getElem?_eq_getElem h2]
        rw [hnext pno.toNat hin h2, ih]
      · have hn1 : pages1.length ≤ pno.toNat := by omega
        have hn2 : pages2.length ≤ pno.toNat := by omega
        simp only [List.getElem?_eq_none hn1, List.getElem?_eq_none hn2]

theorem walkEnd_congr {pages1 pages2 : List Page}
    (hlen : pages1.length = pages2.length)
    (hnext : ∀ i, (h1 : i < pages1.length) → (h2 : i < pages2.length) →
      pages1[i].next_page = pages2[i].next_page) :
    ∀ fuel pno, walkEnd pages1 pno fuel = walkEnd pages2 pno fuel := by
  intro fuel
  induction fuel with
  | zero => intro pno; rfl
  | succ n ih =>
    intro pno
    rw [walkEnd, walkEnd]
    by_cases hneg : pno < 0
    · rw [if_pos hneg, if_pos hneg]
    · rw [if_neg hneg, if_neg hneg]
      by_cases hin : pno.toNat < pages1.length
      · have h2 : pno.toNat < pages2.length := hlen ▸ hin
        simp only [List.getElem?_eq_getElem hin, List.getElem?_eq_getElem h2]
        rw [hnext pno.toNat hin h2, ih]
      · have hn1 : pages1.length ≤ pno.toNat := by omega
        have hn2 : pages2.length ≤ pno.toNat := by omega
        simp only [List.getElem?_eq_none hn1, List.getElem?_eq_none hn2]

theorem chain_frame {pages pages' : List Page}
    (hag : ∀ i, i ≠ 0 → i < pages.length → pages'[i]? = pages[i]?) :
    ∀ fuel pno e, walkEnd pages pno fuel = some e →
      (∀ y ∈ chainFrom pages pno fuel, y ≠ 0 ∧ y < pages.length) →
      chainFrom pages' pno fuel = chainFrom pages pno fuel ∧
      walkEnd pages' pno fuel = some e := by
  intro fuel
  induction fuel with
  | zero => intro pno e he; cases he
  | succ n ih =>
    intro pno e he hvisit
    rw [walkEnd] at he
    by_cases hneg : pno < 0
    · rw [if_pos hneg] at he
      refine ⟨?_, ?_⟩
      · rw [chainFrom, if_pos hneg, chainFrom, if_pos hneg]
      · rw [walkEnd, if_pos hneg]; exact he
    · rw [if_neg hneg] at he
      cases hget : pages[pno.toNat]? with
      | none => rw [hget] at he; cases he
      | some pg =>
        simp only [hget] at he
        have hvisit' : ∀ y ∈ pno.toNat :: chainFrom pages pg.next_page n,
            y ≠ 0 ∧ y < pages.length := by
          intro y hy
          apply hvisit
          rw [chainFrom, if_neg hneg]
          simp only [hget]
          exact hy
        have hhead := hvisit' pno.toNat (List.mem_cons_self ..)
        have hget' : pages'[pno.toNat]? = some pg := by
          rw [hag pno.toNat hhead.1 hhead.2, hget]
        obtain ⟨hc, hw⟩ := ih pg.next_page e he
          (fun y hy => hvisit' y (List.mem_cons_of_mem _ hy))
        refine ⟨?_, ?_⟩
        · rw [chainFrom, if_neg hneg, chainFrom, if_neg hneg]
          simp only [hget, hget']
          rw [hc]
        · rw [walkEnd, if_neg hneg]
          simp only [hget']
          exact hw

theorem searchChain_ok (pages : List Page) (key : Int) :
    ∀ fuel pno, walkEnd pages pno fuel = some (-1) →
      ∃ res, searchChain pages key pno fuel = .ok res ∧
        (res.isSome ↔ ∃ p ∈ chainFrom pages pno fuel,
          ∃ r ∈ (pages.getD p ⟨[], -1⟩).records, r.id = key) ∧
        (∀ r, res = some r → r.id = key) := by
  intro fuel
  induction fuel with
  | zero => intro pno he; cases he
  | succ n ih =>
    intro pno he
    rw [walkEnd] at he
    by_cases hneg : pno < 0
    · rw [if_pos hneg] at he
      have : pno = -1 := by injection he
      subst this
      refine ⟨none, ?_, ?_, ?_⟩
      · rw [searchChain, if_pos rfl]
      · rw [chainFrom]
        norm_num
      · intro r hr; cases hr
    · have hne1 : pno ≠ -1 := by omega
      rw [if_neg hneg] at he
      cases hget : pages[pno.toNat]? with
      | none => rw [hget] at he; cases he
      | some pg =>
        simp only [hget] at he
        have hch : chainFrom pages pno (n + 1) =
            pno.toNat :: chainFrom pages pg.next_page n := by
          rw [chainFrom, if_neg hneg]
          simp only [hget]
        have hpgmem : pages.getD pno.toNat ⟨[], -1⟩ = pg := by
          obtain ⟨hlt, hval⟩ := List.getElem?_eq_some_iff.mp hget
          rw [List.getD_eq_getElem _ _ hlt, hval]
        cases hfind : pg.records.find? (fun r => r.id == key) with
        | some r =>
          have hr : r.id = key := by
            have := List.find?_some hfind
            simpa using this
          refine ⟨some r, ?_, ?_, ?_⟩
          · rw [searchChain, if_neg hne1, if_neg hneg]
            simp only [hget, hfind]
          · simp only [Option.isSome_some, true_iff, hch]
            exact ⟨pno.toNat, List.mem_cons_self .., r, by
              rw [hpgmem]; exact ⟨List.mem_of_find?_eq_some hfind, hr⟩⟩
          · intro r' hr'; cases hr'; exact hr
        | none =>
          obtain ⟨res, hrun, hiff, hid⟩ := ih pg.next_page he
          refine ⟨res, ?_, ?_, hid⟩
          · rw [searchChain, if_neg hne1, if_neg hneg]
            simp only [hget, hfind]
            exact hrun
          · rw [hiff, hch]
            constructor
            · intro ⟨p, hp, hr⟩
              exact ⟨p, List.mem_cons_of_mem _ hp, hr⟩
            · intro ⟨p, hp, r, hr, hrid⟩
              rcases List.mem_cons.mp hp with rfl | hptail
              · exfalso
                rw [hpgmem] at hr
                have := List.find?_eq_none.mp hfind r hr
                simp [hrid] at this
              · exact ⟨p, hptail, r, hr, hrid⟩

/-! ## Lemmas: the insert invariant -/

theorem allRecords_mk (pgs : List Page) (idx : List (Int × Nat)) :
    allRecords ⟨pgs, idx⟩ = (pgs.map Page.records).flatten := rfl

theorem insert_ok_of_index_single {s : Store} {k0 : Int} {p0 : Page}
    {tl : List Page} (hidx : s.index = [(k0, 0)]) (hp : s.pages = p0 :: tl)
    (r : Record) :
    ISAM.insert s r =
      .ok ⟨ISAM.insertPages s.pages 0 (ISAM.insert_into_page_sorted p0 r),
        s.index⟩ := by
  have hlen0 : ¬ s.pages.length = 0 := by rw [hp]; simp
  have htarget : IndexFile.find_page_for_key s.index r.id = 0 := by
    rw [hidx]; exact find_page_single k0 r.id
  have hget0 : s.pages[IndexFile.find_page_for_key s.index r.id]? = some p0 := by
    rw [htarget, hp]; simp
  have hidxne : ¬ s.index = [] := by rw [hidx]; simp
  unfold ISAM.insert
  rw [if_neg hlen0]
  simp only [hget0]
  rw [if_neg hidxne, htarget]

theorem walk_unfold_head {p0 : Page} {tl : List Page}
    (hwalk : walkEnd (p0 :: tl) 0 ((p0 :: tl).length + 1) = some (-1)) :
    walkEnd (p0 :: tl) p0.next_page (p0 :: tl).length = some (-1) := by
  rw [walkEnd, if_neg (by omega)] at hwalk
  simpa using hwalk

theorem chain_unfold_head (p0 : Page) (tl : List Page) :
    chainList (p0 :: tl) =
      0 :: chainFrom (p0 :: tl) p0.next_page (p0 :: tl).length := by
  rw [chainList, chainFrom, if_neg (by omega)]
  simp

theorem inplace_chain (pages pages' : List Page)
    (hlen : pages'.length = pages.length)
    (hnext : ∀ i, (h1 : i < pages'.length) → (h2 : i < pages.length) →
      pages'[i].next_page = pages[i].next_page)
    (hwalk : walkEnd pages 0 (pages.length + 1) = some (-1))
    (hchain : (chainList pages).Perm (List.range pages.length)) :
    walkEnd pages' 0 (pages'.length + 1) = some (-1) ∧
    (chainList pages').Perm (List.range pages'.length) := by
  constructor
  · rw [hlen, walkEnd_congr hlen hnext]
    exact hwalk
  · rw [chainList, hlen, chainFrom_congr hlen hnext]
    exact hchain

theorem split_chain (tl : List Page) (p0 lowPg newPg : Page)
    (hlownext : lowPg.next_page = (((p0 :: tl) : List Page).length : Int))
    (hnewnext : newPg.next_page = p0.next_page)
    (hwalk : walkEnd (p0 :: tl) 0 ((p0 :: tl).length + 1) = some (-1))
    (hchain : (chainList (p0 :: tl)).Perm (List.range (p0 :: tl).length)) :
    walkEnd (lowPg :: (tl ++ [newPg])) 0
        ((lowPg :: (tl ++ [newPg])).length + 1) = some (-1) ∧
    (chainList (lowPg :: (tl ++ [newPg]))).Perm
        (List.range (lowPg :: (tl ++ [newPg])).length) := by
  have hwalk' := walk_unfold_head hwalk
  have hchainEq := chain_unfold_head p0 tl
  have hchain' : (0 :: chainFrom (p0 :: tl) p0.next_page (p0 :: tl).length).Perm
      (List.range (p0 :: tl).length) := by
    rw [← hchainEq]; exact hchain
  have hnodup : (0 :: chainFrom (p0 :: tl) p0.next_page (p0 :: tl).length).Nodup :=
    hchain'.symm.nodup (List.nodup_range _)
  have htailmem : ∀ y ∈ chainFrom (p0 :: tl) p0.next_page (p0 :: tl).length,
      y ≠ 0 ∧ y < (p0 :: tl).length := by
    intro y hy
    constructor
    · intro hy0
      subst hy0
      exact (List.nodup_cons.mp hnodup).1 hy
    · have : y ∈ List.range (p0 :: tl).length :=
        hchain'.mem_iff.mp (List.mem_cons_of_mem _ hy)
      simpa using this
  have hag : ∀ i, i ≠ 0 → i < (p0 :: tl).length →
      (lowPg :: (tl ++ [newPg]))[i]? = (p0 :: tl)[i]? := by
    intro i hi0 hilen
    cases i with
    | zero => exact absurd rfl hi0
    | succ j =>
      rw [List.getElem?_cons_succ, List.getElem?_cons_succ]
      exact List.getElem?_append_left (by simpa using hilen)
  obtain ⟨hcFR, hwFR⟩ := chain_frame hag (p0 :: tl).length p0.next_page (-1)
    hwalk' htailmem
  have hlen' : (lowPg :: (tl ++ [newPg])).length = (p0 :: tl).length + 1 := by
    simp
  have hgetlow : (lowPg :: (tl ++ [newPg]))[((0 : Int)).toNat]? = some lowPg := by
    simp
  have hgetnew : (lowPg :: (tl ++ [newPg]))[((((p0 :: tl) : List Page).length :
      Int)).toNat]? = some newPg := by
    simp
  constructor
  · rw [hlen']
    rw [walkEnd, if_neg (by omega)]
    simp only [hgetlow, hlownext]
    rw [walkEnd, if_neg (by omega)]
    simp only [hgetnew, hnewnext]
    exact hwFR
  · rw [chainList, hlen']
    rw [chainFrom, if_neg (by omega)]
    simp only [hgetlow, hlownext]
    rw [chainFrom, if_neg (by omega)]
    simp only [hgetnew, hnewnext, hcFR]
    have h0 : ((0 : Int)).toNat = 0 := rfl
    have hLn : ((((p0 :: tl) : List Page).length : Int)).toNat =
        (p0 :: tl).length := by simp
    rw [h0, hLn]
    calc 0 :: (p0 :: tl).length ::
          chainFrom (p0 :: tl) p0.next_page (p0 :: tl).length
        ~ (p0 :: tl).length :: 0 ::
          chainFrom (p0 :: tl) p0.next_page (p0 :: tl).length :=
          List.Perm.swap _ 0 _
      _ ~ (p0 :: tl).length :: List.range (p0 :: tl).length :=
          List.Perm.cons _ hchain'
      _ ~ List.range ((p0 :: tl).length + 1) := by
          rw [List.range_succ]
          exact (List.perm_append_singleton _ _).symm

theorem storeOK_insert {s : Store} {rs : List Record} (r : Record)
    (h : StoreOK s rs) :
    ∃ s', ISAM.insert s r = .ok s' ∧ StoreOK s' (rs ++ [r]) := by
  cases rs with
  | nil =>
    have hs : s = emptyStore := h
    subst hs
    refine ⟨⟨[⟨[r], -1⟩], [(r.id, 0)]⟩, rfl, ?_⟩
    refine ⟨rfl, by simp, ?_, ?_, ?_, ?_⟩
    · rfl
    · exact (List.Perm.refl [0] : ([0] : List Nat).Perm [0])
    · exact List.Perm.refl _
    · intro pg hpg
      have hpg' : pg = ⟨[r], -1⟩ := by simpa using hpg
      subst hpg'
      simp [pageIds]
  | cons r0 rest =>
    obtain ⟨pgs, idx⟩ := s
    obtain ⟨hidx, hne, hwalk, hchain, hperm, hsort⟩ := h
    replace hidx : idx = [(r0.id, 0)] := hidx
    replace hne : pgs ≠ [] := hne
    replace hwalk : walkEnd pgs 0 (pgs.length + 1) = some (-1) := hwalk
    replace hchain : (chainList pgs).Perm (List.range pgs.length) := hchain
    replace hsort : ∀ pg ∈ pgs, List.Pairwise (· ≤ ·) (pageIds pg) := hsort
    subst hidx
    obtain ⟨p0, tl, hp⟩ := List.exists_cons_of_ne_nil hne
    subst hp
    replace hperm : (allRecords ⟨p0 :: tl, [(r0.id, 0)]⟩).Perm (r0 :: rest) :=
      hperm
    have hins := insert_ok_of_index_single
      (s := ⟨p0 :: tl, [(r0.id, 0)]⟩) rfl rfl r
    have hsort0 : List.Pairwise (· ≤ ·) (pageIds p0) :=
      hsort p0 (List.mem_cons_self ..)
    have hcsort : List.Pairwise (· ≤ ·)
        (pageIds (ISAM.insert_into_page_sorted p0 r)) :=
      pageIds_insert_sorted r hsort0
    have hcperm : (ISAM.insert_into_page_sorted p0 r).records.Perm
        (r :: p0.records) := insert_into_page_sorted_perm p0 r
    have hcnext : (ISAM.insert_into_page_sorted p0 r).next_page = p0.next_page :=
      insert_into_page_sorted_next p0 r
    have hall : allRecords ⟨p0 :: tl, [(r0.id, 0)]⟩ =
        p0.records ++ (tl.map Page.records).flatten := by
      rw [allRecords_mk]; simp
    by_cases hle :
      (ISAM.insert_into_page_sorted p0 r).records.length ≤ BLOCK_FACTOR
    · -- the record fits: page 0 is rewritten in place
      have hpages' : ISAM.insertPages (p0 :: tl) 0
          (ISAM.insert_into_page_sorted p0 r) =
          ISAM.insert_into_page_sorted p0 r :: tl := by
        rw [ISAM.insertPages, if_pos hle]
        rfl
      refine ⟨⟨ISAM.insert_into_page_sorted p0 r :: tl, [(r0.id, 0)]⟩,
        by rw [hins, hpages'], ?_⟩
      obtain ⟨hwalk', hchain'⟩ := inplace_chain (p0 :: tl)
        (ISAM.insert_into_page_sorted p0 r :: tl)
        (by simp)
        (fun i h1 h2 => by
          cases i with
          | zero => exact hcnext
          | succ j => rfl)
        hwalk hchain
      refine ⟨rfl, by simp, hwalk', hchain', ?_, ?_⟩
      · show (allRecords ⟨ISAM.insert_into_page_sorted p0 r :: tl,
          [(r0.id, 0)]⟩).Perm (r0 :: (rest ++ [r]))
        rw [allRecords_mk]
        calc ((ISAM.insert_into_page_sorted p0 r :: tl).map Page.records).flatten
            = (ISAM.insert_into_page_sorted p0 r).records ++
              (tl.map Page.records).flatten := by simp
          _ ~ (r :: p0.records) ++ (tl.map Page.records).flatten :=
              hcperm.append_right _
          _ = r :: (p0.records ++ (tl.map Page.records).flatten) := rfl
          _ ~ r :: (r0 :: rest) := List.Perm.cons r (by rw [← hall]; exact hperm)
          _ ~ (r0 :: rest) ++ [r] := (List.perm_append_singleton r _).symm
      · intro pg hpg
        rcases List.mem_cons.mp hpg with rfl | hmem
        · exact hcsort
        · exact hsort pg (List.mem_cons_of_mem _ hmem)
    · -- the page overflows: split
      obtain ⟨cur, hC⟩ : ∃ cur, ISAM.insert_into_page_sorted p0 r = cur :=
        ⟨_, rfl⟩
      rw [hC] at hcsort hcperm hcnext hle hins
      obtain ⟨M, hM⟩ : ∃ m, (cur.records.length + 1) / 2 = m := ⟨_, rfl⟩
      have hpages' : ISAM.insertPages (p0 :: tl) 0 cur =
          (⟨cur.records.take M, (((p0 :: tl) : List Page).length : Int)⟩ : Page) ::
            (tl ++ [⟨cur.records.drop M, cur.next_page⟩]) := by
        rw [ISAM.insertPages, if_neg hle, hM]
        rfl
      obtain ⟨lowP, hL⟩ : ∃ pg : Page,
          (⟨cur.records.take M, (((p0 :: tl) : List Page).length : Int)⟩ : Page) =
            pg := ⟨_, rfl⟩
      obtain ⟨newP, hN⟩ : ∃ pg : Page,
          (⟨cur.records.drop M, cur.next_page⟩ : Page) = pg := ⟨_, rfl⟩
      have hLrec : lowP.records = cur.records.take M := by rw [← hL]
      have hLnext : lowP.next_page = (((p0 :: tl) : List Page).length : Int) := by
        rw [← hL]
      have hNrec : newP.records = cur.records.drop M := by rw [← hN]
      have hNnext : newP.next_page = cur.next_page := by rw [← hN]
      rw [hL, hN] at hpages'
      refine ⟨⟨lowP :: (tl ++ [newP]), [(r0.id, 0)]⟩,
        by rw [hins, hpages'], ?_⟩
      obtain ⟨hwalk', hchain'⟩ := split_chain tl p0 lowP newP
        hLnext (hNnext.trans hcnext) hwalk hchain
      refine ⟨rfl, by simp, hwalk', hchain', ?_, ?_⟩
      · show (allRecords ⟨lowP :: (tl ++ [newP]), [(r0.id, 0)]⟩).Perm
          (r0 :: (rest ++ [r]))
        rw [allRecords_mk]
        calc ((lowP :: (tl ++ [newP])).map Page.records).flatten
            = lowP.records ++ ((tl.map Page.records).flatten ++ newP.records) := by
              simp
          _ = cur.records.take M ++
              ((tl.map Page.records).flatten ++ cur.records.drop M) := by
              rw [hLrec, hNrec]
          _ ~ cur.records.take M ++
              (cur.records.drop M ++ (tl.map Page.records).flatten) :=
              List.Perm.append_left _ List.perm_append_comm
          _ = (cur.records.take M ++ cur.records.drop M) ++
              (tl.map Page.records).flatten := by
              rw [List.append_assoc]
          _ = cur.records ++ (tl.map Page.records).flatten := by
              rw [List.take_append_drop]
          _ ~ (r :: p0.records) ++ (tl.map Page.records).flatten :=
              hcperm.append_right _
          _ = r :: (p0.records ++ (tl.map Page.records).flatten) := rfl
          _ ~ r :: (r0 :: rest) := List.Perm.cons r (by rw [← hall]; exact hperm)
          _ ~ (r0 :: rest) ++ [r] := (List.perm_append_singleton r _).symm
      · intro pg hpg
        rcases List.mem_cons.mp hpg with rfl | hmem
        · have hml : pageIds pg = (pageIds cur).take M := by
            rw [pageIds, pageIds, hLrec]
            exact List.map_take ..
          rw [hml]
          exact hcsort.sublist (List.take_sublist ..)
        · rcases List.mem_append.mp hmem with hmem' | hmem'
          · exact hsort pg (List.mem_cons_of_mem _ hmem')
          · have hpg' : pg = newP := by simpa using hmem'
            subst hpg'
            have hmd : pageIds pg = (pageIds cur).drop M := by
              rw [pageIds, pageIds, hNrec]
              exact List.map_drop ..
            rw [hmd]
            exact hcsort.sublist (List.drop_sublist ..)

theorem insertAll_storeOK :
    ∀ (todo : List Record) (s : Store) (done : List Record),
      StoreOK s done →
      ∃ s', insertAll s todo = .ok s' ∧ StoreOK s' (done ++ todo) := by
  intro todo
  induction todo with
  | nil =>
    intro s done h
    exact ⟨s, rfl, by simpa using h⟩
  | cons r rs ih =>
    intro s done h
    obtain ⟨s1, hok, h1⟩ := storeOK_insert r h
    obtain ⟨s', hok', h'⟩ := ih s1 (done ++ [r]) h1
    refine ⟨s', ?_, ?_⟩
    · rw [insertAll]
      simp only [hok]
      exact hok'
    · simpa [List.append_assoc] using h'

theorem reachable_storeOK (rs : List Record) :
    ∃ s, insertAll emptyStore rs = .ok s ∧ StoreOK s rs := by
  simpa using insertAll_storeOK rs emptyStore [] rfl

/-! ## Lemmas: record-count and page-frame effects of one insert -/

theorem flatten_length_set :
    ∀ (pages : List Page) (t : Nat) (pg : Page), (ht : t < pages.length) →
      (((pages.set t pg).map Page.records).flatten).length +
          (pages[t]).records.length =
        ((pages.map Page.records).flatten).length + pg.records.length := by
  intro pages
  induction pages with
  | nil => intro t pg ht; simp at ht
  | cons a l ih =>
    intro t pg ht
    cases t with
    | zero => simp; omega
    | succ j =>
      have hj : j < l.length := by simpa using ht
      have := ih j pg hj
      simp only [List.set_cons_succ, List.map_cons, List.flatten_cons,
        List.length_append, List.getElem_cons_succ]
      omega

theorem totalRecords_insert (s : Store) (r : Record) (s' : Store)
    (hok : ISAM.insert s r = .ok s') : totalRecords s' = totalRecords s + 1 := by
  unfold ISAM.insert at hok
  by_cases h0 : s.pages.length = 0
  · rw [if_pos h0] at hok
    have hnil : s.pages = [] := List.length_eq_zero.mp h0
    have hs' := Except.ok.inj hok
    subst hs'
    rw [totalRecords, totalRecords, allRecords_mk,
      show allRecords s = (s.pages.map Page.records).flatten from rfl, hnil]
    rfl
  · rw [if_neg h0] at hok
    cases hget : s.pages[IndexFile.find_page_for_key s.index r.id]? with
    | none => rw [hget] at hok; cases hok
    | some curPg =>
      simp only [hget] at hok
      have hs' := Except.ok.inj hok
      subst hs'
      obtain ⟨ht, hval⟩ := List.getElem?_eq_some_iff.mp hget
      rw [totalRecords, totalRecords]
      rw [show allRecords s = (s.pages.map Page.records).flatten from rfl]
      rw [allRecords_mk]
      rw [ISAM.insertPages]
      have hlen1 : (ISAM.insert_into_page_sorted curPg r).records.length =
          curPg.records.length + 1 := insert_into_page_sorted_length curPg r
      by_cases hle :
        (ISAM.insert_into_page_sorted curPg r).records.length ≤ BLOCK_FACTOR
      · rw [if_pos hle]
        have := flatten_length_set s.pages
          (IndexFile.find_page_for_key s.index r.id)
          (ISAM.insert_into_page_sorted curPg r) ht
        rw [hval] at this
        omega
      · rw [if_neg hle]
        have hsetlen := flatten_length_set s.pages
          (IndexFile.find_page_for_key s.index r.id)
          ⟨(ISAM.insert_into_page_sorted curPg r).records.take
              (((ISAM.insert_into_page_sorted curPg r).records.length + 1) / 2),
            (s.pages.length : Int)⟩ ht
        rw [hval] at hsetlen
        simp only [List.map_append, List.flatten_append, List.length_append,
          List.map_cons, List.map_nil, List.flatten_cons, List.flatten_nil]
        simp only [List.length_take, List.length_drop] at hsetlen ⊢
        simp only [List.length_append, List.length_nil] at hsetlen ⊢
        omega

theorem insert_frame (s : Store) (r : Record) (s' : Store)
    (hne : s.pages ≠ [])
    (hok : ISAM.insert s r = .ok s') :
    (s'.pages.length = s.pages.length ∨
      s'.pages.length = s.pages.length + 1) ∧
    ∀ i, i < s.pages.length →
      i ≠ IndexFile.find_page_for_key s.index r.id →
      s'.pages[i]? = s.pages[i]? := by
  unfold ISAM.insert at hok
  have h0 : ¬ s.pages.length = 0 := fun h => hne (List.length_eq_zero.mp h)
  rw [if_neg h0] at hok
  cases hget : s.pages[IndexFile.find_page_for_key s.index r.id]? with
  | none => rw [hget] at hok; cases hok
  | some curPg =>
    simp only [hget] at hok
    have hs' := Except.ok.inj hok
    subst hs'
    rw [ISAM.insertPages]
    by_cases hle :
      (ISAM.insert_into_page_sorted curPg r).records.length ≤ BLOCK_FACTOR
    · rw [if_pos hle]
      refine ⟨Or.inl (by simp), ?_⟩
      intro i hi hit
      exact List.getElem?_set_ne (fun h => hit h.symm)
    · rw [if_neg hle]
      refine ⟨Or.inr (by simp), ?_⟩
      intro i hi hit
      rw [List.getElem?_append_left (by simpa using hi)]
      exact List.getElem?_set_ne (fun h => hit h.symm)

/-! ## Lemmas: the record codec -/

theorem natFromLE4_natLE4 {m : Nat} (hm : m < 4294967296) :
    natFromLE4 (natLE4 m) = m := by
  simp only [natLE4, natFromLE4, List.getD_cons_zero, List.getD_cons_succ]
  omega

theorem decodeI32_encodeI32 {n : Int} (h1 : -2147483648 ≤ n)
    (h2 : n < 2147483648) : decodeI32 (encodeI32 n) = n := by
  have ha : 0 ≤ n % 4294967296 := Int.emod_nonneg n (by norm_num)
  have hb : n % 4294967296 < 4294967296 := Int.emod_lt_of_pos n (by norm_num)
  rw [encodeI32, decodeI32, natFromLE4_natLE4 (by omega)]
  split <;> omega

theorem natLE4_length (m : Nat) : (natLE4 m).length = 4 := rfl

theorem encodeI32_length (n : Int) : (encodeI32 n).length = 4 := rfl

theorem padZeros_length {w : Nat} {l : List Nat} (h : l.length ≤ w) :
    (padZeros w l).length = w := by
  simp only [padZeros, List.length_append, List.length_take,
    List.length_replicate]
  omega

theorem dropWhile_replicate_zero_append (k : Nat) (x : List Nat) :
    (List.replicate k 0 ++ x).dropWhile (fun b => b == 0) =
      x.dropWhile (fun b => b == 0) := by
  induction k with
  | zero => rfl
  | succ j ih => simp [List.replicate_succ, List.dropWhile_cons, ih]

theorem rstripNull_append_zeros (l : List Nat) (k : Nat) :
    rstripNull (l ++ List.replicate k 0) = rstripNull l := by
  rw [rstripNull, rstripNull, List.reverse_append, List.reverse_replicate,
    dropWhile_replicate_zero_append]

theorem sliceBytes_zero (pre rest : List Nat) (n : Nat) (h : pre.length = n) :
    sliceBytes (pre ++ rest) 0 n = pre := by
  rw [sliceBytes, List.drop_zero]
  exact List.take_left' h

theorem sliceBytes_drop (pre rest : List Nat) (off n : Nat)
    (h : pre.length = off) :
    sliceBytes (pre ++ rest) off n = sliceBytes rest 0 n := by
  rw [sliceBytes, sliceBytes, List.drop_zero, List.drop_left' h]

theorem record_roundtrip (r : Record)
    (hn : r.nombre.length ≤ 40) (hf : r.fecha.length ≤ 15)
    (hid1 : -2147483648 ≤ r.id) (hid2 : r.id < 2147483648)
    (hc1 : -2147483648 ≤ r.cantidad) (hc2 : r.cantidad < 2147483648)
    (hpb : r.precioBits < 4294967296)
    (hnr : rstripNull r.nombre = r.nombre) (hns : stripWs r.nombre = r.nombre)
    (hfr : rstripNull r.fecha = r.fecha) (hfs : stripWs r.fecha = r.fecha) :
    ∃ bs, Record.pack r = some bs ∧ Record.unpack bs = some r := by
  have hpadn : padZeros 40 r.nombre =
      r.nombre ++ List.replicate (40 - r.nombre.length) 0 := by
    rw [padZeros, List.take_of_length_le hn]
  have hpadf : padZeros 15 r.fecha =
      r.fecha ++ List.replicate (15 - r.fecha.length) 0 := by
    rw [padZeros, List.take_of_length_le hf]
  have hstripn : stripWs (rstripNull (padZeros 40 r.nombre)) = r.nombre := by
    rw [hpadn, rstripNull_append_zeros, hnr, hns]
  have hstripf : stripWs (rstripNull (padZeros 15 r.fecha)) = r.fecha := by
    rw [hpadf, rstripNull_append_zeros, hfr, hfs]
  refine ⟨encodeI32 r.id ++ padZeros 40 r.nombre ++ encodeI32 r.cantidad ++
      natLE4 r.precioBits ++ padZeros 15 r.fecha, ?_, ?_⟩
  · rw [Record.pack, if_pos ⟨⟨hid1, hid2⟩, ⟨hc1, hc2⟩, hpb⟩]
  · have hLn : (padZeros 40 r.nombre).length = 40 := padZeros_length hn
    have hLf : (padZeros 15 r.fecha).length = 15 := padZeros_length hf
    have hform : encodeI32 r.id ++ padZeros 40 r.nombre ++ encodeI32 r.cantidad ++
        natLE4 r.precioBits ++ padZeros 15 r.fecha =
        encodeI32 r.id ++ (padZeros 40 r.nombre ++ (encodeI32 r.cantidad ++
          (natLE4 r.precioBits ++ padZeros 15 r.fecha))) := by
      simp [List.append_assoc]
    have hlen : (encodeI32 r.id ++ padZeros 40 r.nombre ++ encodeI32 r.cantidad ++
        natLE4 r.precioBits ++ padZeros 15 r.fecha).length = 67 := by
      simp only [List.length_append, encodeI32_length, natLE4_length, hLn, hLf]
    have hs0 : sliceBytes (encodeI32 r.id ++ padZeros 40 r.nombre ++
        encodeI32 r.cantidad ++ natLE4 r.precioBits ++ padZeros 15 r.fecha) 0 4 =
        encodeI32 r.id := by
      rw [hform]
      exact sliceBytes_zero _ _ _ (encodeI32_length _)
    have hs4 : sliceBytes (encodeI32 r.id ++ padZeros 40 r.nombre ++
        encodeI32 r.cantidad ++ natLE4 r.precioBits ++ padZeros 15 r.fecha) 4 40 =
        padZeros 40 r.nombre := by
      rw [hform, sliceBytes_drop _ _ _ _ (encodeI32_length _)]
      exact sliceBytes_zero _ _ _ hLn
    have hform44 : encodeI32 r.id ++ padZeros 40 r.nombre ++ encodeI32 r.cantidad ++
        natLE4 r.precioBits ++ padZeros 15 r.fecha =
        (encodeI32 r.id ++ padZeros 40 r.nombre) ++ (encodeI32 r.cantidad ++
          (natLE4 r.precioBits ++ padZeros 15 r.fecha)) := by
      simp [List.append_assoc]
    have hL44 : (encodeI32 r.id ++ padZeros 40 r.nombre).length = 44 := by
      simp only [List.length_append, encodeI32_length, hLn]
    have hs44 : sliceBytes (encodeI32 r.id ++ padZeros 40 r.nombre ++
        encodeI32 r.cantidad ++ natLE4 r.precioBits ++ padZeros 15 r.fecha) 44 4 =
        encodeI32 r.cantidad := by
      rw [hform44, sliceBytes_drop _ _ _ _ hL44]
      exact sliceBytes_zero _ _ _ (encodeI32_length _)
    have hform48 : encodeI32 r.id ++ padZeros 40 r.nombre ++ encodeI32 r.cantidad ++
        natLE4 r.precioBits ++ padZeros 15 r.fecha =
        (encodeI32 r.id ++ padZeros 40 r.nombre ++ encodeI32 r.cantidad) ++
          (natLE4 r.precioBits ++ padZeros 15 r.fecha) := by
      simp [List.append_assoc]
    have hL48 : (encodeI32 r.id ++ padZeros 40 r.nombre ++
        encodeI32 r.cantidad).length = 48 := by
      simp only [List.length_append, encodeI32_length, hLn]
    have hs48 : sliceBytes (encodeI32 r.id ++ padZeros 40 r.nombre ++
        encodeI32 r.cantidad ++ natLE4 r.precioBits ++ padZeros 15 r.fecha) 48 4 =
        natLE4 r.precioBits := by
      rw [hform48, sliceBytes_drop _ _ _ _ hL48]
      exact sliceBytes_zero _ _ _ (natLE4_length _)
    have hform52 : encodeI32 r.id ++ padZeros 40 r.nombre ++ encodeI32 r.cantidad ++
        natLE4 r.precioBits ++ padZeros 15 r.fecha =
        (encodeI32 r.id ++ padZeros 40 r.nombre ++ encodeI32 r.cantidad ++
          natLE4 r.precioBits) ++ padZeros 15 r.fecha := rfl
    have hL52 : (encodeI32 r.id ++ padZeros 40 r.nombre ++ encodeI32 r.cantidad ++
        natLE4 r.precioBits).length = 52 := by
      simp only [List.length_append, encodeI32_length, natLE4_length, hLn]
    have hs52 : sliceBytes (encodeI32 r.id ++ padZeros 40 r.nombre ++
        encodeI32 r.cantidad ++ natLE4 r.precioBits ++ padZeros 15 r.fecha)
        52 15 = padZeros 15 r.fecha := by
      rw [hform52, sliceBytes_drop _ _ _ _ hL52, sliceBytes, List.drop_zero]
      exact List.take_of_length_le (le_of_eq hLf)
    rw [Record.unpack, if_pos (by rw [hlen]; rfl)]
    rw [hs0, hs4, hs44, hs48, hs52]
    rw [decodeI32_encodeI32 hid1 hid2, decodeI32_encodeI32 hc1 hc2,
      natFromLE4_natLE4 hpb, hstripn, hstripf]
    rw [mkRecord, List.take_of_length_le hn, List.take_of_length_le hf]

/-! ## Lemmas: the page codec -/

theorem record_unpack_of_length {bs : List Nat} (h : bs.length = SIZE_OF_RECORD) :
    ∃ r, Record.unpack bs = some r := by
  rw [Record.unpack, if_pos h]
  exact ⟨_, rfl⟩

theorem record_unpack_short {bs : List Nat} (h : bs.length ≠ SIZE_OF_RECORD) :
    Record.unpack bs = none := by
  rw [Record.unpack, if_neg h]

theorem sliceBytes_length (bs : List Nat) (off n : Nat) :
    (sliceBytes bs off n).length = min n (bs.length - off) := by
  simp [sliceBytes]

theorem unpackRecords_ok (bs : List Nat) :
    ∀ (n off : Nat), off + SIZE_OF_RECORD * n ≤ bs.length →
      ∃ rs, unpackRecords bs off n = some rs ∧ rs.length = n := by
  intro n
  induction n with
  | zero => intro off _; exact ⟨[], rfl, rfl⟩
  | succ m ih =>
    intro off h
    rw [SIZE_OF_RECORD] at h
    have hslice : (sliceBytes bs off SIZE_OF_RECORD).length = SIZE_OF_RECORD := by
      rw [sliceBytes_length, SIZE_OF_RECORD]
      omega
    obtain ⟨r, hr⟩ := record_unpack_of_length hslice
    obtain ⟨rs, hrs, hlen⟩ := ih (off + SIZE_OF_RECORD)
      (by rw [SIZE_OF_RECORD]; omega)
    refine ⟨r :: rs, ?_, by simp [hlen]⟩
    rw [unpackRecords]
    simp only [hr, hrs]

theorem unpackRecords_none (bs : List Nat) :
    ∀ (n off : Nat), 1 ≤ n → bs.length < off + SIZE_OF_RECORD * n →
      unpackRecords bs off n = none := by
  intro n
  induction n with
  | zero => intro off h1 _; omega
  | succ m ih =>
    intro off _ h
    rw [SIZE_OF_RECORD] at h
    by_cases hsh : bs.length < off + SIZE_OF_RECORD
    · rw [SIZE_OF_RECORD] at hsh
      have hshort : (sliceBytes bs off SIZE_OF_RECORD).length ≠ SIZE_OF_RECORD := by
        rw [sliceBytes_length, SIZE_OF_RECORD]
        omega
      rw [unpackRecords]
      simp only [record_unpack_short hshort]
    · rw [SIZE_OF_RECORD] at hsh
      have hfull : (sliceBytes bs off SIZE_OF_RECORD).length = SIZE_OF_RECORD := by
        rw [sliceBytes_length, SIZE_OF_RECORD]
        omega
      obtain ⟨r, hr⟩ := record_unpack_of_length hfull
      have hrec := ih (off + SIZE_OF_RECORD) (by omega)
        (by rw [SIZE_OF_RECORD]; omega)
      rw [unpackRecords]
      simp only [hr, hrec]

theorem sliceBytes_agree {bs bs' : List Nat} {m off n : Nat}
    (hpre : bs'.take m = bs.take m) (h : off + n ≤ m) :
    sliceBytes bs' off n = sliceBytes bs off n := by
  have key : ∀ l : List Nat, sliceBytes l off n = (l.take (off + n)).drop off := by
    intro l
    rw [sliceBytes, List.drop_take, Nat.add_sub_cancel_left]
  rw [key, key]
  have e1 : bs'.take (off + n) = (bs'.take m).take (off + n) := by
    rw [List.take_take, min_eq_left h]
  have e2 : bs.take (off + n) = (bs.take m).take (off + n) := by
    rw [List.take_take, min_eq_left h]
  rw [e1, e2, hpre]

theorem unpackRecords_agree {bs bs' : List Nat} :
    ∀ (n off m : Nat), off + SIZE_OF_RECORD * n ≤ m →
      bs'.take m = bs.take m →
      unpackRecords bs' off n = unpackRecords bs off n := by
  intro n
  induction n with
  | zero => intro off m _ _; rfl
  | succ k ih =>
    intro off m h hpre
    rw [SIZE_OF_RECORD] at h
    have hsl : sliceBytes bs' off SIZE_OF_RECORD =
        sliceBytes bs off SIZE_OF_RECORD :=
      sliceBytes_agree hpre (by rw [SIZE_OF_RECORD]; omega)
    rw [unpackRecords, unpackRecords, hsl]
    cases hr : Record.unpack (sliceBytes bs off SIZE_OF_RECORD) with
    | none => rfl
    | some r =>
      rw [ih (off + SIZE_OF_RECORD) m (by rw [SIZE_OF_RECORD]; omega) hpre]

theorem page_unpack_ok {bs : List Nat} (hL : bs.length = SIZE_OF_PAGE)
    (h3 : (decodeI32 (sliceBytes bs 0 4)).toNat ≤ BLOCK_FACTOR) :
    ∃ pg, Page.unpack bs = some pg ∧
      pg.records.length = (decodeI32 (sliceBytes bs 0 4)).toNat ∧
      pg.next_page = decodeI32 (sliceBytes bs 4 4) := by
  have h209 : bs.length = 209 := by rw [hL]; rfl
  rw [BLOCK_FACTOR] at h3
  obtain ⟨rs, hrs, hlen⟩ := unpackRecords_ok bs
    (decodeI32 (sliceBytes bs 0 4)).toNat 8
    (by rw [SIZE_OF_RECORD, h209]; omega)
  rw [Page.unpack, if_neg (by omega)]
  simp only [hrs]
  exact ⟨⟨rs, decodeI32 (sliceBytes bs 4 4)⟩, rfl, hlen, rfl⟩

theorem page_unpack_corrupt {bs : List Nat} (hL : bs.length = SIZE_OF_PAGE)
    (hc : BLOCK_FACTOR < (decodeI32 (sliceBytes bs 0 4)).toNat) :
    Page.unpack bs = none := by
  have h209 : bs.length = 209 := by rw [hL]; rfl
  rw [BLOCK_FACTOR] at hc
  have hnone := unpackRecords_none bs (decodeI32 (sliceBytes bs 0 4)).toNat 8
    (by omega) (by rw [SIZE_OF_RECORD, h209]; omega)
  rw [Page.unpack, if_neg (by omega)]
  simp only [hnone]

theorem page_unpack_agree {bs bs' : List Nat} (hL : bs.length = SIZE_OF_PAGE)
    (hL' : bs'.length = SIZE_OF_PAGE)
    (hpre : bs'.take (8 + SIZE_OF_RECORD *
        (decodeI32 (sliceBytes bs 0 4)).toNat) =
      bs.take (8 + SIZE_OF_RECORD * (decodeI32 (sliceBytes bs 0 4)).toNat)) :
    Page.unpack bs' = Page.unpack bs := by
  have h209 : bs.length = 209 := by rw [hL]; rfl
  have h209' : bs'.length = 209 := by rw [hL']; rfl
  have hhead : sliceBytes bs' 0 4 = sliceBytes bs 0 4 :=
    sliceBytes_agree hpre (by rw [SIZE_OF_RECORD]; omega)
  have hnext : sliceBytes bs' 4 4 = sliceBytes bs 4 4 :=
    sliceBytes_agree hpre (by rw [SIZE_OF_RECORD]; omega)
  have hrecs : unpackRecords bs' 8 (decodeI32 (sliceBytes bs 0 4)).toNat =
      unpackRecords bs 8 (decodeI32 (sliceBytes bs 0 4)).toNat :=
    unpackRecords_agree _ _ _ (le_refl _) hpre
  rw [Page.unpack, Page.unpack, if_neg (by omega), if_neg (by omega),
    hhead, hnext, hrecs]

/-! ## Lemmas: bisect on keys that are all smaller -/

theorem takeWhile_all_lt (l : List Int) (x : Int) (hall : ∀ k ∈ l, k < x) :
    l.takeWhile (fun k => decide (k < x)) = l := by
  induction l with
  | nil => rfl
  | cons a t ih =>
    rw [List.takeWhile_cons,
      if_pos (decide_eq_true (hall a (List.mem_cons_self ..)))]
    rw [ih (fun k hk => hall k (List.mem_cons_of_mem _ hk))]

theorem bisect_left_all_lt (keys : List Int) (x : Int)
    (hs : List.Pairwise (· ≤ ·) keys) (hall : ∀ k ∈ keys, k < x) :
    bisect_left keys x = keys.length := by
  rw [bisect_left_sorted x hs, insPoint, takeWhile_all_lt keys x hall]

/-! ## The claims -/

/-- C2 (corrected): inserting an id that is already present is not detected:
the insert is never a no-op — every successful insert adds exactly one record
to the data file, equal ids included (the source's
`_insert_into_page_sorted` has no duplicate check). -/
theorem C2_total_grows (s : Store) (r : Record) (s' : Store)
    (h : ISAM.insert s r = .ok s') :
    totalRecords s' = totalRecords s + 1 :=
  totalRecords_insert s r s' h

/-- Witness for C2: re-inserting id 5 into a store already holding id 5 grows
the record count. -/
theorem C2_total_grows_witness : totalRecords dupS2 = totalRecords dupS1 + 1 :=
  C2_total_grows dupS1 dupRecB dupS2 (by decide)

/-- C2 counterexample: per the claim, inserting a present key should leave the
store byte-for-byte unchanged and report `DuplicateKey`; instead the insert
succeeds, the data file changes, and page 0 ends up with two records of id 5. -/
theorem C2_duplicate_inserted :
    ISAM.insert dupS1 dupRecB = .ok dupS2 ∧
    dupS2 ≠ dupS1 ∧
    pageIds (dupS2.pages.getD 0 ⟨[], -1⟩) = [5, 5] := by decide

/-- C3: on the two-page chain `page 0 = [1,2] → page 1 = [7,10]` built by
inserting 1, 2, 7, 10, the spec requires the insert of id 12 to walk to the
terminal chain page (page 1). The code never follows `nextPage` (its
`while True` loop breaks in both branches), so 12 is inserted into the primary
page 0 instead, leaving pages `[1,2,12] → [7,10]`. -/
theorem C3_insert_ignores_chain :
    insertAll emptyStore c3Records = .ok c3Store ∧
    c3Store.pages.map (fun p => (pageIds p, p.next_page)) =
      [([1, 2, 12], 1), ([7, 10], -1)] := by decide

/-- C10 (confirmed): an insert into a non-empty store touches at most the
owning page (rewritten in place) and at most one appended page: the page count
grows by at most one and every other existing page is bit-identical. -/
theorem C10_insert_frame (s : Store) (r : Record) (s' : Store)
    (hne : s.pages ≠ []) (hok : ISAM.insert s r = .ok s') :
    (s'.pages.length = s.pages.length ∨
      s'.pages.length = s.pages.length + 1) ∧
    ∀ i, i < s.pages.length →
      i ≠ IndexFile.find_page_for_key s.index r.id →
      s'.pages[i]? = s.pages[i]? :=
  insert_frame s r s' hne hok

/-- Witness for C10 at a concrete one-page store. -/
theorem C10_insert_frame_witness :
    (dupS2.pages.length = dupS1.pages.length ∨
      dupS2.pages.length = dupS1.pages.length + 1) ∧
    ∀ i, i < dupS1.pages.length →
      i ≠ IndexFile.find_page_for_key dupS1.index dupRecB.id →
      dupS2.pages[i]? = dupS1.pages[i]? :=
  C10_insert_frame dupS1 dupRecB dupS2 (by decide) (by decide)

/-- C1 (corrected): the actual final state of the driver's seven inserts
(ids 10, 2, 7, 1, 12, 5, 6 from empty, BLOCK_FACTOR = 3). Because the insert
never walks the chain and the index is never rebuilt, the store ends with
THREE pages — page 0 = ids [1,2,6] (next 2), page 1 = [7,10] (next −1),
page 2 = [5,12] (next 1) — the chain from page 0 visits pages 0, 2, 1 and
yields ids 1,2,6,5,12,7,10 (all seven records exactly once, not in ascending
order), and the index holds the single entry (10, 0), the first inserted id. -/
theorem C1_actual_state :
    insertAll emptyStore c1Records = .ok c1Store ∧
    c1Store.pages.map (fun p => (pageIds p, p.next_page)) =
      [([1, 2, 6], 2), ([7, 10], -1), ([5, 12], 1)] ∧
    c1Store.index = [(10, 0)] ∧
    chainList c1Store.pages = [0, 2, 1] ∧
    ((chainList c1Store.pages).map
        (fun p => pageIds (c1Store.pages.getD p ⟨[], -1⟩))).flatten =
      [1, 2, 6, 5, 12, 7, 10] := by decide

/-- C1 counterexample: the spec's expected final state (two linked pages of
sizes 4 and 3, ascending chain, index entry (1, 0)) is false — the file has
three pages and the index entry is (10, 0), not (1, 0). -/
theorem C1_spec_state_refuted :
    insertAll emptyStore c1Records = .ok c1Store ∧
    c1Store.index ≠ [(1, 0)] ∧
    c1Store.pages.length = 3 ∧
    ((chainList c1Store.pages).map
        (fun p => pageIds (c1Store.pages.getD p ⟨[], -1⟩))).flatten ≠
      [1, 2, 5, 6, 7, 10, 12] := by decide

/-- C6 counterexample: rebuilding the index from the C1 data file emits one
entry per non-empty page in page order — `[(1,0), (7,1), (5,2)]` — indexing
the split-product overflow pages 1 and 2 and breaking the strictly-increasing
`minKey` invariant, unlike the store's own index `[(10, 0)]`. -/
theorem C6_rebuild_breaks_invariant :
    insertAll emptyStore c1Records = .ok c1Store ∧
    c1Store.index = [(10, 0)] ∧
    IndexFile.build c1Store.pages = [(1, 0), (7, 1), (5, 2)] ∧
    ¬ List.Pairwise (· < ·) ((IndexFile.build c1Store.pages).map Prod.fst) ∧
    ¬ ∀ e ∈ IndexFile.build c1Store.pages,
        e.2 ∈ c1Store.index.map Prod.snd := by decide

/-- C6 (corrected, reachable-state part): in every store reachable from the
empty store by inserts, the index holds exactly the single entry
`(first inserted id, 0)` — so it trivially has no duplicate page numbers,
strictly increasing minKeys, and references only the primary page 0. (The
rebuild path does NOT preserve this; see the counterexample.) -/
theorem C6_index_single_entry (r0 : Record) (rest : List Record) (s : Store)
    (hok : insertAll emptyStore (r0 :: rest) = .ok s) :
    s.index = [(r0.id, 0)] ∧
    (s.index.map Prod.snd).Nodup ∧
    List.Pairwise (· < ·) (s.index.map Prod.fst) := by
  obtain ⟨s1, hok1, hOK⟩ := reachable_storeOK (r0 :: rest)
  rw [hok1] at hok
  cases Except.ok.inj hok
  obtain ⟨hidx, -⟩ := hOK
  rw [hidx]
  exact ⟨rfl, by simp, by simp⟩

/-- Witness for C6 at a concrete single-insert store. -/
theorem C6_index_single_entry_witness :
    dupS1.index = [(dupRecA.id, 0)] ∧
    (dupS1.index.map Prod.snd).Nodup ∧
    List.Pairwise (· < ·) (dupS1.index.map Prod.fst) :=
  C6_index_single_entry dupRecA [] dupS1 (by decide)

/-- C8 (corrected): every page of a store reachable by inserts keeps its
records sorted non-strictly by id (every insert lands at its `bisect_left`
position), and the ordering is strict whenever the inserted ids are distinct.
Strictness fails in general because duplicate ids are accepted (see the
counterexample). -/
theorem C8_pages_sorted (rs : List Record) (s : Store)
    (hok : insertAll emptyStore rs = .ok s) :
    (∀ pg ∈ s.pages, List.Pairwise (· ≤ ·) (pageIds pg)) ∧
    ((rs.map (·.id)).Nodup →
      ∀ pg ∈ s.pages, List.Pairwise (· < ·) (pageIds pg)) := by
  obtain ⟨s, hok1, hOK⟩ := reachable_storeOK rs
  rw [hok1] at hok
  cases Except.ok.inj hok
  cases rs with
  | nil =>
    have hs : s = emptyStore := hOK
    subst hs
    exact ⟨by simp [emptyStore], fun _ => by simp [emptyStore]⟩
  | cons r0 rest =>
    obtain ⟨hidx, hne, hwalk, hchain, hperm, hsort⟩ := hOK
    refine ⟨hsort, ?_⟩
    intro hnod pg hpg
    obtain ⟨l1, l2, hsplit⟩ := List.append_of_mem hpg
    have hsub : pg.records.Sublist (allRecords s) := by
      rw [show allRecords s = (s.pages.map Page.records).flatten from rfl,
        hsplit]
      simp only [List.map_append, List.map_cons, List.flatten_append,
        List.flatten_cons]
      exact (List.sublist_append_left _ _).trans (List.sublist_append_right _ _)
    have hidsub : (pageIds pg).Sublist ((allRecords s).map (·.id)) :=
      hsub.map _
    have hpm : ((allRecords s).map (·.id)).Perm ((r0 :: rest).map (·.id)) :=
      hperm.map _
    have hnodall : ((allRecords s).map (·.id)).Nodup := hpm.symm.nodup hnod
    have hnodpg : (pageIds pg).Nodup := hnodall.sublist hidsub
    exact ((hsort pg hpg).and hnodpg).imp fun h => lt_of_le_of_ne h.1 h.2

/-- Witness for C8 at a concrete single-insert store with distinct ids. -/
theorem C8_pages_sorted_witness :
    (∀ pg ∈ dupS1.pages, List.Pairwise (· ≤ ·) (pageIds pg)) ∧
    (∀ pg ∈ dupS1.pages, List.Pairwise (· < ·) (pageIds pg)) :=
  ⟨(C8_pages_sorted [dupRecA] dupS1 (by decide)).1,
   (C8_pages_sorted [dupRecA] dupS1 (by decide)).2 (by decide)⟩

/-- C8 counterexample: inserting id 5 twice is accepted and leaves page 0 with
ids `[5, 5]`, which is not strictly increasing. -/
theorem C8_strictness_refuted :
    insertAll emptyStore [dupRecA, dupRecB] = .ok dupS2 ∧
    pageIds (dupS2.pages.getD 0 ⟨[], -1⟩) = [5, 5] ∧
    ¬ List.Pairwise (· < ·) (pageIds (dupS2.pages.getD 0 ⟨[], -1⟩)) := by
  decide

/-- C5 (corrected, non-empty part): once at least one record has been
inserted, `search` walks the chain from `findOwningPage(k)` to the `-1`
sentinel and finds a record with id k exactly when k was inserted; when it
returns a record, that record's id is k. (No delete operation exists in the
source, so "not deleted" is vacuous; for the empty store see the
counterexample.) -/
theorem C5_search_after_inserts (r0 : Record) (rest : List Record) (s : Store)
    (k : Int) (hok : insertAll emptyStore (r0 :: rest) = .ok s) :
    ∃ res, ISAM.search s k = .ok res ∧
      (res.isSome ↔ k ∈ (r0 :: rest).map (·.id)) ∧
      (∀ rr, res = some rr → rr.id = k) := by
  obtain ⟨s, hok1, hOK⟩ := reachable_storeOK (r0 :: rest)
  rw [hok1] at hok
  cases Except.ok.inj hok
  obtain ⟨hidx, hne, hwalk, hchain, hperm, hsort⟩ := hOK
  have hfind : IndexFile.find_page_for_key s.index k = 0 := by
    rw [hidx]; exact find_page_single r0.id k
  obtain ⟨res, hrun, hiff, hid⟩ :=
    searchChain_ok s.pages k (s.pages.length + 1) 0 hwalk
  refine ⟨res, ?_, ?_, hid⟩
  · rw [ISAM.search, hfind]
    simpa using hrun
  · rw [hiff]
    constructor
    · rintro ⟨p, hp, r, hr, hrid⟩
      have hpr : p ∈ List.range s.pages.length := hchain.mem_iff.mp hp
      have hplt : p < s.pages.length := List.mem_range.mp hpr
      rw [List.getD_eq_getElem _ _ hplt] at hr
      have hmemall : r ∈ allRecords s := by
        rw [show allRecords s = (s.pages.map Page.records).flatten from rfl,
          List.mem_flatten]
        exact ⟨(s.pages[p]).records,
          List.mem_map_of_mem _ (s.pages.getElem_mem hplt), hr⟩
      exact List.mem_map.mpr ⟨r, hperm.mem_iff.mp hmemall, hrid⟩
    · intro hk
      obtain ⟨r, hrmem, hrid⟩ := List.mem_map.mp hk
      have hmemall : r ∈ allRecords s := hperm.mem_iff.mpr hrmem
      rw [show allRecords s = (s.pages.map Page.records).flatten from rfl,
        List.mem_flatten] at hmemall
      obtain ⟨recsl, hrecsl, hrin⟩ := hmemall
      obtain ⟨pg, hpg, rfl⟩ := List.mem_map.mp hrecsl
      obtain ⟨p, hplt, rfl⟩ := List.getElem_of_mem hpg
      refine ⟨p, ?_, r, ?_, hrid⟩
      · exact hchain.mem_iff.mpr (List.mem_range.mpr hplt)
      · rw [List.getD_eq_getElem _ _ hplt]
        exact hrin

/-- Witness for C5 at a concrete single-insert store. -/
theorem C5_search_after_inserts_witness :
    ∃ res, ISAM.search dupS1 5 = .ok res ∧
      (res.isSome ↔ (5 : Int) ∈ [dupRecA].map (·.id)) ∧
      (∀ rr, res = some rr → rr.id = 5) :=
  C5_search_after_inserts dupRecA [] dupS1 5 (by decide)

/-- C5 counterexample: on the empty store (no record ever inserted), `search`
does not report not-found — it unconditionally reads page 0 and the decode of
the empty read fails, surfacing as an exception. -/
theorem C5_empty_search_errors :
    ISAM.search emptyStore 0 = .error () ∧
    (Except.error () : Except Unit (Option Record)) ≠ .ok none := by decide

/-- C4 (confirmed): (1) whenever an insert overflows the owning page, the
engine splits at `mid = (count+1)/2 = ⌈count/2⌉`: the first `mid` records stay
in the page slot with `nextPage` aimed at the newly appended page (page number
= old page count), the remaining records are appended as a new page whose
`nextPage` is the value the overflowing page held before the split, and the
index is untouched; (2) consequently, inserting `BLOCK_FACTOR + 1` records
with strictly increasing keys from empty yields exactly two pages linked via
`nextPage`, of sizes 2 and 2 (each ≤ BLOCK_FACTOR, totalling BLOCK_FACTOR+1),
with the index still holding `(first key, 0)`. -/
theorem C4_split :
    (∀ (s : Store) (r : Record) (curPg : Page),
      s.index ≠ [] → ¬ s.pages.length = 0 →
      s.pages[IndexFile.find_page_for_key s.index r.id]? = some curPg →
      BLOCK_FACTOR < (ISAM.insert_into_page_sorted curPg r).records.length →
      ISAM.insert s r = .ok
        ⟨(s.pages.set (IndexFile.find_page_for_key s.index r.id)
            ⟨(ISAM.insert_into_page_sorted curPg r).records.take
                (((ISAM.insert_into_page_sorted curPg r).records.length + 1) / 2),
              (s.pages.length : Int)⟩) ++
          [⟨(ISAM.insert_into_page_sorted curPg r).records.drop
              (((ISAM.insert_into_page_sorted curPg r).records.length + 1) / 2),
            curPg.next_page⟩],
          s.index⟩) ∧
    (∀ r1 r2 r3 r4 : Record,
      r1.id < r2.id → r2.id < r3.id → r3.id < r4.id →
      insertAll emptyStore [r1, r2, r3, r4] =
        .ok ⟨[⟨[r1, r2], 1⟩, ⟨[r3, r4], -1⟩], [(r1.id, 0)]⟩) := by
  constructor
  · intro s r curPg hidxne hlen0 hget hover
    unfold ISAM.insert
    rw [if_neg hlen0]
    simp only [hget]
    rw [if_neg hidxne, ISAM.insertPages, if_neg (by omega)]
    rfl
  · intro r1 r2 r3 r4 h12 h23 h34
    have hb2 : bisect_left [r1.id] r2.id = 1 := by
      have := bisect_left_all_lt [r1.id] r2.id
        (by simp) (by intro k hk; simp at hk; omega)
      simpa using this
    have hi2 : ISAM.insert_into_page_sorted ⟨[r1], -1⟩ r2 = ⟨[r1, r2], -1⟩ := by
      rw [ISAM.insert_into_page_sorted]
      simp only [List.map_cons, List.map_nil]
      rw [hb2]
      rfl
    have hs2 : ISAM.insert ⟨[⟨[r1], -1⟩], [(r1.id, 0)]⟩ r2 =
        .ok ⟨[⟨[r1, r2], -1⟩], [(r1.id, 0)]⟩ := by
      rw [insert_ok_of_index_single rfl rfl r2, hi2,
        ISAM.insertPages, if_pos (by simp [BLOCK_FACTOR])]
      rfl
    have hb3 : bisect_left [r1.id, r2.id] r3.id = 2 := by
      have := bisect_left_all_lt [r1.id, r2.id] r3.id
        (by simp [List.pairwise_cons]; omega)
        (by intro k hk; simp at hk; rcases hk with rfl | rfl <;> omega)
      simpa using this
    have hi3 : ISAM.insert_into_page_sorted ⟨[r1, r2], -1⟩ r3 =
        ⟨[r1, r2, r3], -1⟩ := by
      rw [ISAM.insert_into_page_sorted]
      simp only [List.map_cons, List.map_nil]
      rw [hb3]
      rfl
    have hs3 : ISAM.insert ⟨[⟨[r1, r2], -1⟩], [(r1.id, 0)]⟩ r3 =
        .ok ⟨[⟨[r1, r2, r3], -1⟩], [(r1.id, 0)]⟩ := by
      rw [insert_ok_of_index_single rfl rfl r3, hi3,
        ISAM.insertPages, if_pos (by simp [BLOCK_FACTOR])]
      rfl
    have hb4 : bisect_left [r1.id, r2.id, r3.id] r4.id = 3 := by
      have := bisect_left_all_lt [r1.id, r2.id, r3.id] r4.id
        (by simp [List.pairwise_cons]; omega)
        (by intro k hk; simp at hk; rcases hk with rfl | rfl | rfl <;> omega)
      simpa using this
    have hi4 : ISAM.insert_into_page_sorted ⟨[r1, r2, r3], -1⟩ r4 =
        ⟨[r1, r2, r3, r4], -1⟩ := by
      rw [ISAM.insert_into_page_sorted]
      simp only [List.map_cons, List.map_nil]
      rw [hb4]
      rfl
    have hs4 : ISAM.insert ⟨[⟨[r1, r2, r3], -1⟩], [(r1.id, 0)]⟩ r4 =
        .ok ⟨[⟨[r1, r2], 1⟩, ⟨[r3, r4], -1⟩], [(r1.id, 0)]⟩ := by
      rw [insert_ok_of_index_single rfl rfl r4, hi4,
        ISAM.insertPages, if_neg (by simp [BLOCK_FACTOR])]
      simp
    have h1 : ISAM.insert emptyStore r1 = .ok ⟨[⟨[r1], -1⟩], [(r1.id, 0)]⟩ := rfl
    rw [insertAll]
    simp only [h1]
    rw [insertAll]
    simp only [hs2]
    rw [insertAll]
    simp only [hs3]
    rw [insertAll]
    simp only [hs4]
    rw [insertAll]

/-- Witness for C4: both parts applied at concrete inputs — the overflow of a
full page `[1,2,3]` by id 4, and four increasing inserts 1, 2, 3, 4. -/
theorem C4_split_witness :
    ISAM.insert ⟨[⟨[mkRecord 1 [] 0 0 [], mkRecord 2 [] 0 0 [],
        mkRecord 3 [] 0 0 []], -1⟩], [(1, 0)]⟩ (mkRecord 4 [] 0 0 []) =
      .ok ⟨[⟨[mkRecord 1 [] 0 0 [], mkRecord 2 [] 0 0 []], 1⟩,
        ⟨[mkRecord 3 [] 0 0 [], mkRecord 4 [] 0 0 []], -1⟩], [(1, 0)]⟩ ∧
    insertAll emptyStore [mkRecord 1 [] 0 0 [], mkRecord 2 [] 0 0 [],
        mkRecord 3 [] 0 0 [], mkRecord 4 [] 0 0 []] =
      .ok ⟨[⟨[mkRecord 1 [] 0 0 [], mkRecord 2 [] 0 0 []], 1⟩,
        ⟨[mkRecord 3 [] 0 0 [], mkRecord 4 [] 0 0 []], -1⟩], [(1, 0)]⟩ := by
  constructor
  · have := C4_split.1 ⟨[⟨[mkRecord 1 [] 0 0 [], mkRecord 2 [] 0 0 [],
        mkRecord 3 [] 0 0 []], -1⟩], [(1, 0)]⟩ (mkRecord 4 [] 0 0 [])
      ⟨[mkRecord 1 [] 0 0 [], mkRecord 2 [] 0 0 [], mkRecord 3 [] 0 0 []], -1⟩
      (by decide) (by decide) (by decide) (by decide)
    simpa using this
  · exact C4_split.2 (mkRecord 1 [] 0 0 []) (mkRecord 2 [] 0 0 [])
      (mkRecord 3 [] 0 0 []) (mkRecord 4 [] 0 0 [])
      (by decide) (by decide) (by decide)

/-- C7 (corrected): the record codec round-trips — `unpack (pack r) = r` —
for records whose `id`/`cantidad` are 32-bit, whose 32-bit float image is in
range, and whose name and date are ASCII text (bytes < 128, so that Python's
`decode(errors="ignore")` is the identity and the strip set is exactly
`isWsByte`), within the declared byte widths, AND fixed by the decoder's
cleanup, i.e. unchanged by trailing-NUL stripping and by whitespace stripping
at either end (text with edge whitespace — including the separator bytes
0x1C–0x1F that `str.strip()` also removes — or trailing NUL bytes does not
survive; see the counterexample). -/
theorem C7_roundtrip_stripped (r : Record)
    (_hnA : ∀ b ∈ r.nombre, b < 128) (_hfA : ∀ b ∈ r.fecha, b < 128)
    (hn : r.nombre.length ≤ 40) (hf : r.fecha.length ≤ 15)
    (hid1 : -2147483648 ≤ r.id) (hid2 : r.id < 2147483648)
    (hc1 : -2147483648 ≤ r.cantidad) (hc2 : r.cantidad < 2147483648)
    (hpb : r.precioBits < 4294967296)
    (hnr : rstripNull r.nombre = r.nombre) (hns : stripWs r.nombre = r.nombre)
    (hfr : rstripNull r.fecha = r.fecha) (hfs : stripWs r.fecha = r.fecha) :
    ∃ bs, Record.pack r = some bs ∧ Record.unpack bs = some r :=
  record_roundtrip r hn hf hid1 hid2 hc1 hc2 hpb hnr hns hfr hfs

/-- Witness for C7 at a concrete record. -/
theorem C7_roundtrip_witness :
    ∃ bs, Record.pack (mkRecord 1 [65] 2 3 [49]) = some bs ∧
      Record.unpack bs = some (mkRecord 1 [65] 2 3 [49]) :=
  C7_roundtrip_stripped (mkRecord 1 [65] 2 3 [49]) (by decide) (by decide)
    (by decide) (by decide) (by decide) (by decide) (by decide) (by decide)
    (by decide) (by decide) (by decide) (by decide) (by decide)

/-- C7 counterexample: the record with name `" A"` (a space then `A`) is
within the declared widths, yet `decode (encode r)` returns name `"A"` — the
decoder's `strip()` removes the leading space, so the round-trip law as
claimed is false. -/
theorem C7_roundtrip_refuted :
    c7Rec.nombre.length ≤ 40 ∧ c7Rec.fecha.length ≤ 15 ∧
    (Record.pack c7Rec).bind Record.unpack = some (mkRecord 1 [65] 0 0 []) ∧
    mkRecord 1 [65] 0 0 [] ≠ c7Rec := by decide

/-- C9 (confirmed): `Page.unpack` reads the header and then decodes exactly
the encoded count of records when `0 ≤ count ≤ BLOCK_FACTOR` (as a
non-negative count, `count.toNat = count`): the result never depends on the
zero-padding area — any buffer agreeing on the first `8 + 67·count` bytes
decodes identically; and when the encoded count exceeds `BLOCK_FACTOR`, the
decode fails (the fourth record slice runs out of bytes, `struct.error` in
the source) instead of reading past the record area. -/
theorem C9_page_decode (bs : List Nat) (hL : bs.length = SIZE_OF_PAGE)
    (_hbytes : ∀ b ∈ bs, b < 256) :
    ((decodeI32 (sliceBytes bs 0 4)).toNat ≤ BLOCK_FACTOR →
      ∃ pg, Page.unpack bs = some pg ∧
        pg.records.length = (decodeI32 (sliceBytes bs 0 4)).toNat ∧
        pg.next_page = decodeI32 (sliceBytes bs 4 4) ∧
        ∀ bs' : List Nat, bs'.length = SIZE_OF_PAGE →
          bs'.take (8 + SIZE_OF_RECORD *
              (decodeI32 (sliceBytes bs 0 4)).toNat) =
            bs.take (8 + SIZE_OF_RECORD *
              (decodeI32 (sliceBytes bs 0 4)).toNat) →
          Page.unpack bs' = Page.unpack bs) ∧
    (BLOCK_FACTOR < (decodeI32 (sliceBytes bs 0 4)).toNat →
      Page.unpack bs = none) := by
  constructor
  · intro h3
    obtain ⟨pg, hpg, hlen, hnext⟩ := page_unpack_ok hL h3
    exact ⟨pg, hpg, hlen, hnext,
      fun bs' hL' hpre => page_unpack_agree hL hL' hpre⟩
  · intro hc
    exact page_unpack_corrupt hL hc

set_option maxRecDepth 4000 in
/-- Witness for C9: an all-zero page buffer (count 0) decodes to an empty
page independent of its padding, and a buffer with encoded count 4 fails to
decode. -/
theorem C9_page_decode_witness :
    (∃ pg, Page.unpack c9GoodBuf = some pg ∧
      pg.records.length = (decodeI32 (sliceBytes c9GoodBuf 0 4)).toNat ∧
      pg.next_page = decodeI32 (sliceBytes c9GoodBuf 4 4) ∧
      ∀ bs' : List Nat, bs'.length = SIZE_OF_PAGE →
        bs'.take (8 + SIZE_OF_RECORD *
            (decodeI32 (sliceBytes c9GoodBuf 0 4)).toNat) =
          c9GoodBuf.take (8 + SIZE_OF_RECORD *
            (decodeI32 (sliceBytes c9GoodBuf 0 4)).toNat) →
        Page.unpack bs' = Page.unpack c9GoodBuf) ∧
    Page.unpack c9BadBuf = none :=
  ⟨(C9_page_decode c9GoodBuf (by decide) (by decide)).1 (by decide),
   (C9_page_decode c9BadBuf (by decide) (by decide)).2 (by decide)⟩
